import Mathlib

/-!
Verification of the Armory scene exporter core (blender/arm/exporter.py).

The Python source is shallowly embedded: Python floats become rationals,
Python lists become Lean lists, and the imperative loops become folds or
structural recursions that mirror the source's control flow.  Host
(Blender / mathutils) data is passed in as explicit values or function
parameters, matching the read-only query interface the exporter uses.
-/

/-- Constant AnimationTypeSampled = 0 from exporter.py. -/
def AnimationTypeSampled : Nat := 0

/-- Constant AnimationTypeLinear = 1 from exporter.py. -/
def AnimationTypeLinear : Nat := 1

/-- Constant AnimationTypeBezier = 2 from exporter.py. -/
def AnimationTypeBezier : Nat := 2

/-- Constant ExportEpsilon = 1.0e-6 from exporter.py. -/
def ExportEpsilon : ℚ := 1 / 1000000

/-- Python's math.fabs on exact rationals. -/
def fabs (q : ℚ) : ℚ := if q < 0 then -q else q

/-- List.getD agrees with indexing when the index is in bounds. -/
theorem listGetD_eq {α : Type} (l : List α) (i : Nat) (d : α)
    (h : i < l.length) : l.getD i d = l[i] := by
  induction l generalizing i with
  | nil => simp at h
  | cons a t ih =>
      cases i with
      | zero => rfl
      | succ j => simpa using ih j (by simpa using h)

/-- One Blender keyframe as read by the exporter: co, handle_left and
handle_right are (time, value) pairs; interpolation is Blender's mode
string (LINEAR, BEZIER, CONSTANT, ...). -/
structure Keyframe where
  co : ℚ × ℚ
  handle_left : ℚ × ℚ
  handle_right : ℚ × ℚ
  interpolation : String
deriving DecidableEq

instance : Inhabited Keyframe := ⟨⟨(0, 0), (0, 0), (0, 0), "LINEAR"⟩⟩

/-- Loop body of ArmoryExporter.classify_animation_curve: walk the keys
keeping linear and bezier counters, returning Sampled early on any other
interpolation mode; afterwards pick Linear / Bezier / Sampled from the
counters. -/
def classifyGo : List Keyframe → Nat → Nat → Nat
  | [], lin, bez =>
      if bez = 0 then AnimationTypeLinear
      else if lin = 0 then AnimationTypeBezier
      else AnimationTypeSampled
  | k :: rest, lin, bez =>
      if k.interpolation = "LINEAR" then classifyGo rest (lin + 1) bez
      else if k.interpolation = "BEZIER" then classifyGo rest lin (bez + 1)
      else AnimationTypeSampled

/-- ArmoryExporter.classify_animation_curve (exporter.py lines 270-288),
applied to the fcurve's keyframe_points. -/
def classify_animation_curve (ks : List Keyframe) : Nat := classifyGo ks 0 0

/-- ArmoryExporter.animation_keys_different (exporter.py lines 290-299):
key1 is the value of keyframe 0; every later keyframe value is compared
against key1 (key1 is never updated inside the loop). -/
def animation_keys_different : List Keyframe → Bool
  | [] => false
  | k0 :: rest => rest.any fun k => fabs (k.co.2 - k0.co.2) > ExportEpsilon

/-- ArmoryExporter.animation_tangents_nonzero (exporter.py lines 302-316):
the explicit check of keyframe 0 followed by the loop from index 1 tests
every keyframe with the same predicate. -/
def animation_tangents_nonzero (ks : List Keyframe) : Bool :=
  ks.any fun k =>
    fabs (k.co.2 - k.handle_left.2) > ExportEpsilon ||
    fabs (k.handle_right.2 - k.co.2) > ExportEpsilon

/-- ArmoryExporter.animation_present (exporter.py lines 339-343). -/
def animation_present (ks : List Keyframe) (kind : Nat) : Bool :=
  if kind ≠ AnimationTypeBezier then animation_keys_different ks
  else animation_keys_different ks || animation_tangents_nonzero ks

/-- Classification following the spec's words (for claim C3): Sampled if
any key uses a mode other than linear or cubic-Bezier; else Linear if
zero Bezier keys; else Bezier if zero linear keys; else Sampled. -/
def specClassify (ks : List Keyframe) : Nat :=
  if ks.any fun k => !(k.interpolation == "LINEAR" || k.interpolation == "BEZIER") then
    AnimationTypeSampled
  else if ks.countP (fun k => k.interpolation == "BEZIER") = 0 then
    AnimationTypeLinear
  else if ks.countP (fun k => k.interpolation == "LINEAR") = 0 then
    AnimationTypeBezier
  else AnimationTypeSampled

/-- The presence test following the claim C6's words: some pair of
successive keyframe values differs by more than the fixed epsilon. -/
def successiveValuesExceed (ks : List Keyframe) : Bool :=
  (ks.zip ks.tail).any fun p => fabs (p.2.co.2 - p.1.co.2) > ExportEpsilon

/-- Generalisation of classify_animation_curve over the two counters. -/
theorem classifyGo_eq (ks : List Keyframe) : ∀ lin bez : Nat,
    classifyGo ks lin bez =
      if ks.any fun k => !(k.interpolation == "LINEAR" || k.interpolation == "BEZIER") then
        AnimationTypeSampled
      else if bez + ks.countP (fun k => k.interpolation == "BEZIER") = 0 then
        AnimationTypeLinear
      else if lin + ks.countP (fun k => k.interpolation == "LINEAR") = 0 then
        AnimationTypeBezier
      else AnimationTypeSampled := by
  induction ks with
  | nil => intro lin bez; simp [classifyGo]
  | cons k rest ih =>
      intro lin bez
      by_cases hl : k.interpolation = "LINEAR"
      · simp only [classifyGo, if_pos hl, ih]
        have : (k.interpolation == "LINEAR") = true := by simpa using hl
        simp [List.any_cons, List.countP_cons, this, hl]
      · by_cases hb : k.interpolation = "BEZIER"
        · simp only [classifyGo, if_neg hl, if_pos hb, ih]
          have hb' : (k.interpolation == "BEZIER") = true := by simpa using hb
          have hl' : (k.interpolation == "LINEAR") = false := by simpa using hl
          simp [List.any_cons, List.countP_cons, hb', hl', hb]
        · have hl' : (k.interpolation == "LINEAR") = false := by simpa using hl
          have hb' : (k.interpolation == "BEZIER") = false := by simpa using hb
          simp [classifyGo, hl, hb, List.any_cons, hl', hb']

/-- Claim C3: for every sequence of keyframe interpolation modes,
classify_animation_curve agrees with the spec's case analysis (Sampled on
any non-linear non-Bezier key, else Linear when no Bezier keys, else
Bezier when no linear keys, else Sampled for a mix) and in particular
always returns exactly one of Sampled, Linear, Bezier. -/
theorem classify_animation_curve_spec (ks : List Keyframe) :
    classify_animation_curve ks = specClassify ks ∧
    (classify_animation_curve ks = AnimationTypeSampled ∨
     classify_animation_curve ks = AnimationTypeLinear ∨
     classify_animation_curve ks = AnimationTypeBezier) := by
  have h : classify_animation_curve ks = specClassify ks := by
    rw [classify_animation_curve, classifyGo_eq, specClassify]
    simp
  refine ⟨h, ?_⟩
  rw [h, specClassify]
  split
  · exact Or.inl rfl
  · split
    · exact Or.inr (Or.inl rfl)
    · split
      · exact Or.inr (Or.inr rfl)
      · exact Or.inl rfl

/-- Claim C9: an empty channel classifies as Linear (not Sampled), and
animation_keys_different returns false for any channel with fewer than
two keyframes, so an empty or single-key linear channel is never
reported as animated by value change. -/
theorem classify_empty_and_short_keys (ks : List Keyframe)
    (h : ks.length < 2) :
    classify_animation_curve [] = AnimationTypeLinear ∧
    animation_keys_different ks = false := by
  refine ⟨rfl, ?_⟩
  match ks, h with
  | [], _ => rfl
  | [k], _ => rfl

/-- Witness for C9 at concrete single-keyframe input. -/
theorem classify_empty_and_short_keys_witness :
    classify_animation_curve [] = AnimationTypeLinear ∧
    animation_keys_different [⟨(0, 5), (0, 5), (0, 5), "LINEAR"⟩] = false :=
  classify_empty_and_short_keys [⟨(0, 5), (0, 5), (0, 5), "LINEAR"⟩] (by decide)

/-- Three all-linear keyframes whose values are 0, -0.9e-6 and 0.9e-6:
successive values differ by up to 1.8e-6 (beyond ExportEpsilon) but every
value stays within 0.9e-6 of the first keyframe's value. -/
def keysC6 : List Keyframe :=
  [⟨(0, 0), (0, 0), (0, 0), "LINEAR"⟩,
   ⟨(1, -9 / 10000000), (1, -9 / 10000000), (1, -9 / 10000000), "LINEAR"⟩,
   ⟨(2, 9 / 10000000), (2, 9 / 10000000), (2, 9 / 10000000), "LINEAR"⟩]

/-- Counterexample to claim C6 as stated: keysC6 is classified Linear
(non-sampled) and has a successive pair of keyframe values differing by
more than 1e-6, yet animation_present reports it as not animated,
because the code compares every keyframe value against the first
keyframe's value instead of against the previous keyframe's value. -/
theorem animation_present_not_successive :
    classify_animation_curve keysC6 = AnimationTypeLinear ∧
    successiveValuesExceed keysC6 = true ∧
    animation_present keysC6 AnimationTypeLinear = false := by
  refine ⟨by decide, ?_, ?_⟩
  · norm_num [successiveValuesExceed, keysC6, fabs, ExportEpsilon]
  · norm_num [animation_present, animation_keys_different, keysC6, fabs,
      ExportEpsilon, AnimationTypeLinear, AnimationTypeBezier]

/-- Claim C6 amended: for a channel of non-Bezier kind, animation_present
(which is animation_keys_different there) reports the curve animated by
value change iff some later keyframe's value differs from the FIRST
keyframe's value by more than the fixed epsilon 1e-6. -/
theorem animation_present_first_key_change (ks : List Keyframe) (kind : Nat)
    (h : kind ≠ AnimationTypeBezier) :
    animation_present ks kind = true ↔
      ∃ i, 0 < i ∧ i < ks.length ∧
        fabs ((ks.getD i default).co.2 - (ks.getD 0 default).co.2) > ExportEpsilon := by
  rw [animation_present, if_pos h]
  match ks with
  | [] =>
      simp [animation_keys_different]
  | k0 :: rest =>
      rw [animation_keys_different, List.any_eq_true]
      constructor
      · rintro ⟨k, hk, hgt⟩
        rcases List.getElem_of_mem hk with ⟨j, hj, rfl⟩
        refine ⟨j + 1, Nat.succ_pos j, by simpa using Nat.succ_lt_succ hj, ?_⟩
        rw [List.getD_cons_succ, List.getD_cons_zero, listGetD_eq rest j default hj]
        exact of_decide_eq_true hgt
      · rintro ⟨i, hi0, hilen, hgt⟩
        match i, hi0 with
        | j + 1, _ =>
          have hj : j < rest.length := by simpa using Nat.lt_of_succ_lt_succ hilen
          refine ⟨rest[j], List.getElem_mem hj, ?_⟩
          rw [List.getD_cons_succ, List.getD_cons_zero, listGetD_eq rest j default hj] at hgt
          exact decide_eq_true hgt

/-- Witness for the amended C6 at a concrete two-key input. -/
theorem animation_present_first_key_change_witness :
    animation_present [⟨(0, 0), (0, 0), (0, 0), "LINEAR"⟩,
                       ⟨(1, 1), (1, 1), (1, 1), "LINEAR"⟩] AnimationTypeLinear = true :=
  (animation_present_first_key_change _ AnimationTypeLinear (by decide)).mpr
    ⟨1, by decide, by decide, by norm_num [fabs, ExportEpsilon]⟩

/-- The power-of-two rounding loop of unify_vertices (exporter.py lines
520-525): repeatedly clear the lowest set bit until a single bit is
left. -/
def p2down (b : Nat) : Nat :=
  if h : b &&& (b - 1) = 0 then b else
    have hlt : b &&& (b - 1) < b := by
      have h1 : b &&& (b - 1) ≤ b - 1 := Nat.and_le_right
      have h2 : 0 < b := by
        rcases Nat.eq_zero_or_pos b with h0 | h0
        · exact absurd (by rw [h0]; decide) h
        · exact h0
      omega
    p2down (b &&& (b - 1))
termination_by b

/-- The bucket-count computation of unify_vertices (exporter.py lines
518-527). -/
def bucketCountOf (n : Nat) : Nat :=
  let b := n >>> 3
  if b > 1 then p2down b else 1

/-- Bit 0 and higher bits of a doubled number. -/
theorem testBit_double (k : Nat) :
    (2 * k).testBit 0 = false ∧ ∀ i, (2 * k).testBit (i + 1) = k.testBit i := by
  constructor
  · simp [Nat.testBit_zero, Nat.mul_mod_right]
  · intro i
    rw [Nat.testBit_succ]
    congr 1
    omega

/-- Bit 0 and higher bits of a doubled number plus one. -/
theorem testBit_double_add_one (k : Nat) :
    (2 * k + 1).testBit 0 = true ∧ ∀ i, (2 * k + 1).testBit (i + 1) = k.testBit i := by
  constructor
  · simp [Nat.testBit_zero, Nat.mul_add_mod]
  · intro i
    rw [Nat.testBit_succ]
    congr 1
    omega

/-- Clearing the lowest set bit of an odd number drops its bit 0. -/
theorem land_pred_odd (k : Nat) : (2 * k + 1) &&& (2 * k) = 2 * k := by
  apply Nat.eq_of_testBit_eq
  intro i
  rw [Nat.testBit_and]
  cases i with
  | zero => simp [(testBit_double k).1, (testBit_double_add_one k).1]
  | succ j => simp [(testBit_double k).2 j, (testBit_double_add_one k).2 j]

/-- Clearing the lowest set bit of an even number happens in the upper
bits. -/
theorem land_pred_even (k : Nat) (hk : 0 < k) :
    (2 * k) &&& (2 * k - 1) = 2 * (k &&& (k - 1)) := by
  have h1 : 2 * k - 1 = 2 * (k - 1) + 1 := by omega
  apply Nat.eq_of_testBit_eq
  intro i
  rw [Nat.testBit_and]
  cases i with
  | zero =>
      simp [(testBit_double k).1, (testBit_double (k &&& (k - 1))).1]
  | succ j =>
      rw [h1, (testBit_double k).2 j, (testBit_double_add_one (k - 1)).2 j,
        (testBit_double (k &&& (k - 1))).2 j, Nat.testBit_and]

/-- b &&& (b-1) vanishes exactly on the powers of two (b positive). -/
theorem land_pred_eq_zero_iff (b : Nat) (hb : 0 < b) :
    (b &&& (b - 1) = 0) ↔ ∃ k, b = 2 ^ k := by
  induction b using Nat.strong_induction_on with
  | _ b ih =>
      rcases Nat.even_or_odd b with ⟨k, hk⟩ | ⟨k, hk⟩
      · have hb2 : b = 2 * k := by omega
        subst hb2
        have hk0 : 0 < k := by omega
        have hpred : 2 * k - 1 = 2 * k - 1 := rfl
        rw [land_pred_even k hk0]
        have hiff := ih k (by omega) hk0
        constructor
        · intro h
          have h' : k &&& (k - 1) = 0 := by omega
          rcases hiff.mp h' with ⟨j, hj⟩
          exact ⟨j + 1, by rw [hj]; ring⟩
        · rintro ⟨j, hj⟩
          match j, hj with
          | 0, hj => rw [pow_zero] at hj; omega
          | j + 1, hj =>
            have hkj : k = 2 ^ j := by
              have h2 : 2 * k = 2 * 2 ^ j := by rw [hj]; ring
              omega
            have h0 : k &&& (k - 1) = 0 := hiff.mpr ⟨j, hkj⟩
            omega
      · have hb2 : b = 2 * k + 1 := hk
        subst hb2
        have hpred : 2 * k + 1 - 1 = 2 * k := by omega
        rw [hpred, land_pred_odd k]
        constructor
        · intro h
          exact ⟨0, by omega⟩
        · rintro ⟨j, hj⟩
          match j, hj with
          | 0, hj => rw [pow_zero] at hj; omega
          | j + 1, hj =>
            have h2 : 2 ∣ 2 ^ (j + 1) := dvd_pow_self 2 (by omega)
            omega

/-- Nat.log2 of an even positive number. -/
theorem log2_two_mul (k : Nat) (hk : 0 < k) :
    Nat.log2 (2 * k) = Nat.log2 k + 1 := by
  rw [Nat.log2]
  have h2 : 2 ≤ 2 * k := by omega
  rw [if_pos h2]
  congr 1
  congr 1
  omega

/-- Nat.log2 of an odd number at least 3. -/
theorem log2_two_mul_add_one (k : Nat) (hk : 0 < k) :
    Nat.log2 (2 * k + 1) = Nat.log2 k + 1 := by
  rw [Nat.log2]
  have h2 : 2 ≤ 2 * k + 1 := by omega
  rw [if_pos h2]
  congr 1
  congr 1
  omega

/-- Nat.log2 inverts powers of two. -/
theorem log2_pow (j : Nat) : Nat.log2 (2 ^ j) = j := by
  induction j with
  | zero => rw [pow_zero, Nat.log2]; simp
  | succ i ih =>
      have h : 2 ^ (i + 1) = 2 * 2 ^ i := by ring
      rw [h, log2_two_mul (2 ^ i) (Nat.pos_pow_of_pos i (by omega)), ih]

/-- Clearing the lowest set bit preserves the highest set bit. -/
theorem log2_land_pred (b : Nat) (h : b &&& (b - 1) ≠ 0) :
    Nat.log2 (b &&& (b - 1)) = Nat.log2 b := by
  induction b using Nat.strong_induction_on with
  | _ b ih =>
      rcases Nat.even_or_odd b with ⟨k, hk⟩ | ⟨k, hk⟩
      · have hb2 : b = 2 * k := by omega
        subst hb2
        have hk0 : 0 < k := by
          rcases Nat.eq_zero_or_pos k with h0 | h0
          · subst h0; simp at h
          · exact h0
        rw [land_pred_even k hk0] at h ⊢
        have hc : k &&& (k - 1) ≠ 0 := by omega
        have hcpos : 0 < k &&& (k - 1) := Nat.pos_of_ne_zero hc
        rw [log2_two_mul _ hcpos, ih k (by omega) hc, log2_two_mul k hk0]
      · have hb2 : b = 2 * k + 1 := hk
        subst hb2
        have hpred : 2 * k + 1 - 1 = 2 * k := by omega
        rw [hpred, land_pred_odd k] at h ⊢
        have hk0 : 0 < k := by omega
        rw [log2_two_mul k hk0, log2_two_mul_add_one k hk0]

/-- The rounding loop returns the largest power of two below its
positive argument. -/
theorem p2down_eq (b : Nat) (hb : 0 < b) : p2down b = 2 ^ Nat.log2 b := by
  induction b using Nat.strong_induction_on with
  | _ b ih =>
      rw [p2down]
      by_cases h : b &&& (b - 1) = 0
      · rw [dif_pos h]
        rcases (land_pred_eq_zero_iff b hb).mp h with ⟨k, hk⟩
        rw [hk, log2_pow]
      · rw [dif_neg h]
        have hlt : b &&& (b - 1) < b :=
          Nat.lt_of_le_of_lt Nat.and_le_right (by omega)
        have hpos : 0 < b &&& (b - 1) := Nat.pos_of_ne_zero h
        rw [ih _ hlt hpos, log2_land_pred b h]

/-- Claim C7: the welding hash table built by unify_vertices for an input
of n vertices has a bucket count equal to the largest power of two that
is at most n/8 (shiftRight by 3), with a minimum bucket count of 1 when
n/8 is 0 or 1. -/
theorem bucketCount_largest_pow2 (n : Nat) :
    (n / 8 ≤ 1 → bucketCountOf n = 1) ∧
    (2 ≤ n / 8 →
      (∃ k, bucketCountOf n = 2 ^ k) ∧
      bucketCountOf n ≤ n / 8 ∧
      ∀ k, 2 ^ k ≤ n / 8 → 2 ^ k ≤ bucketCountOf n) := by
  have hshift : n >>> 3 = n / 8 := by
    rw [Nat.shiftRight_eq_div_pow]
  have hbc : bucketCountOf n = if n / 8 > 1 then p2down (n / 8) else 1 := by
    rw [bucketCountOf]
    simp only [hshift]
  constructor
  · intro h
    rw [hbc, if_neg (by omega)]
  · intro h
    have hne : n / 8 ≠ 0 := by omega
    have heq : bucketCountOf n = 2 ^ Nat.log2 (n / 8) := by
      rw [hbc, if_pos (by omega), p2down_eq _ (by omega)]
    refine ⟨⟨Nat.log2 (n / 8), heq⟩, ?_, ?_⟩
    · rw [heq]
      exact Nat.log2_self_le hne
    · intro k hk
      rw [heq]
      apply Nat.pow_le_pow_right (by omega)
      by_contra hlt
      push_neg at hlt
      have := (Nat.log2_lt hne).mp hlt
      omega

/-- Witness for C7 at n = 88 (88/8 = 11, largest power of two below 11
is 8) and at n = 8 (8/8 = 1, minimum bucket count 1). -/
theorem bucketCount_largest_pow2_witness :
    bucketCountOf 8 = 1 ∧ bucketCountOf 88 ≤ 11 ∧ 2 ^ 3 ≤ bucketCountOf 88 :=
  ⟨(bucketCount_largest_pow2 8).1 (by norm_num),
   ((bucketCount_largest_pow2 88).2 (by norm_num)).2.1,
   ((bucketCount_largest_pow2 88).2 (by norm_num)).2.2 3 (by norm_num)⟩

/-- One element of a Blender vertex's group list: the vertex-group slot
and the weight of this vertex in that group. -/
structure VGroupElement where
  group : Nat
  weight : ℚ
deriving DecidableEq

/-- One mesh vertex as consumed by the skin packer: its vertex-group
memberships. -/
structure MeshVertex where
  groups : List VGroupElement
deriving DecidableEq

instance : Inhabited MeshVertex := ⟨⟨[]⟩⟩

/-- The group→bone remap loop of export_skin_quality (exporter.py lines
1480-1489): for each vertex group take the index of the first bone with
the same name, or -1 if none matches (the for-else). -/
def groupRemap (vertex_groups : List String) (bones : List String) : List Int :=
  vertex_groups.map fun gname =>
    match bones.findIdx? (fun bname => bname = gname) with
    | some i => (i : Int)
    | none => -1

/-- Python ascending comparison on (weight, bone_index) pairs, as used by
sorted() on the bone_values list of tuples. -/
def weightLe (a b : ℚ × Int) : Prop :=
  a.1 < b.1 ∨ (a.1 = b.1 ∧ a.2 ≤ b.2)

instance : DecidableRel weightLe := fun a b => by
  unfold weightLe; infer_instance

/-- Accumulated output arrays of the per-vertex influence loop of
export_skin_quality. -/
structure SkinState where
  bone_count_array : List Nat
  bone_index_array : List Int
  bone_weight_array : List ℚ
  warn_bones : Bool
deriving DecidableEq

/-- One iteration of the per-vertex loop of export_skin_quality
(exporter.py lines 1497-1522): gather non-zero influences with a valid
bone index, clamp the list to its first 4 entries when more than 4,
emit the entries sorted by descending (weight, index), then multiply by
1/total_weight the entries at Python positions -0, -1, ..., -(count-1)
of the whole accumulated weight array (position -0 is position 0). -/
def skinVertexStep (group_remap : List Int) (mesh_vertex_array : List MeshVertex)
    (st : SkinState) (vertex_index : Nat) : SkinState :=
  let groups := (mesh_vertex_array.getD vertex_index default).groups
  let bone_values := groups.filterMap fun el =>
    let bone_index := group_remap.getD el.group (-1)
    if 0 ≤ bone_index ∧ el.weight ≠ 0 then some (el.weight, bone_index) else none
  let total_weight := (bone_values.map Prod.fst).sum
  let clamped := bone_values.length > 4
  let bone_count := if clamped then 4 else bone_values.length
  let bone_values := if clamped then bone_values.take 4 else bone_values
  let sorted := (List.insertionSort weightLe bone_values).reverse
  let bwa := st.bone_weight_array ++ sorted.map Prod.fst
  let bwa := if total_weight ≠ 0 then
      let normalizer := 1 / total_weight
      (List.range bone_count).foldl (fun a i =>
        let idx := if i = 0 then 0 else a.length - i
        a.set idx (a.getD idx 0 * normalizer)) bwa
    else bwa
  { bone_count_array := st.bone_count_array ++ [bone_count]
    bone_index_array := st.bone_index_array ++ sorted.map Prod.snd
    bone_weight_array := bwa
    warn_bones := st.warn_bones || clamped }

/-- The per-vertex influence packing of export_skin_quality (exporter.py
lines 1480-1534): remap the vertex groups to bone indices, then fold the
per-vertex loop over the vertex_index of each packed export vertex. -/
def export_skin_quality (vertex_groups : List String) (bones : List String)
    (mesh_vertex_array : List MeshVertex) (vertex_indices : List Nat) : SkinState :=
  let group_remap := groupRemap vertex_groups bones
  vertex_indices.foldl (skinVertexStep group_remap mesh_vertex_array)
    ⟨[], [], [], false⟩

/-- Five bones b0..b4 whose vertex groups carry, in group order, the
weights of the claims' scenarios. -/
def skinBonesEx : List String := ["b0", "b1", "b2", "b3", "b4"]

/-- The C1 scenario vertex: five influences with weights
0.4, 0.3, 0.2, 0.06, 0.04 in group order (total 1.0). -/
def skinVertexC1 : MeshVertex :=
  ⟨[⟨0, 2/5⟩, ⟨1, 3/10⟩, ⟨2, 1/5⟩, ⟨3, 3/50⟩, ⟨4, 1/25⟩]⟩

/-- Claim C1 evaluated on the claim's own scenario: a vertex influenced
by 5 bones with weights [0.4, 0.3, 0.2, 0.06, 0.04] packs to 4 entries,
but the emitted weights are [0.4, 0.3, 0.2, 0.06] unchanged — the code's
normalizer is 1/total over the pre-clamp total 1.0, not 1/0.96 over the
retained sum — so the output weights sum to 0.96, not 1.0. -/
theorem skin_weights_not_normalized :
    (export_skin_quality skinBonesEx skinBonesEx [skinVertexC1] [0]).bone_count_array
        = [4] ∧
    (export_skin_quality skinBonesEx skinBonesEx [skinVertexC1] [0]).bone_weight_array
        = [2/5, 3/10, 1/5, 3/50] ∧
    (export_skin_quality skinBonesEx skinBonesEx [skinVertexC1] [0]).bone_weight_array.sum
        = 24/25 ∧
    (24/25 : ℚ) ≠ 1 := by
  refine ⟨?_, ?_, ?_, ?_⟩ <;> with_unfolding_all decide

/-- The C5 scenario vertex: five influences whose weights in group order
are 0.1, 0.4, 0.3, 0.2, 0.25; the four highest are on bones 1, 2, 4, 3. -/
def skinVertexC5 : MeshVertex :=
  ⟨[⟨0, 1/10⟩, ⟨1, 2/5⟩, ⟨2, 3/10⟩, ⟨3, 1/5⟩, ⟨4, 1/4⟩]⟩

/-- Claim C5 evaluated on a 5-influence vertex: the code truncates
bone_values to its FIRST 4 entries in vertex-group order before sorting,
so bone 4 (weight 0.25) is dropped while bone 0 (weight 0.1) is kept —
the retained entries are not the 4 highest-weight influences, though the
emitted bone count is indeed 4. -/
theorem skin_retains_first_not_highest :
    (export_skin_quality skinBonesEx skinBonesEx [skinVertexC5] [0]).bone_count_array
        = [4] ∧
    (export_skin_quality skinBonesEx skinBonesEx [skinVertexC5] [0]).bone_index_array
        = [1, 2, 3, 0] ∧
    (4 : Int) ∉ (export_skin_quality skinBonesEx skinBonesEx [skinVertexC5] [0]).bone_index_array ∧
    (0 : Int) ∈ (export_skin_quality skinBonesEx skinBonesEx [skinVertexC5] [0]).bone_index_array := by
  refine ⟨?_, ?_, ?_, ?_⟩ <;> with_unfolding_all decide

/-- The scene state mutated by frame seeking: current frame and
subframe. -/
structure Scene where
  frame : Int
  subframe : ℚ
deriving DecidableEq

/-- scene.frame_set(frame, subframe): the only scene mutation the
sampled-animation exporters perform. -/
def frame_set (f : Int) (sub : ℚ) : Scene := ⟨f, sub⟩

/-- A host 4x4 matrix as returned by the Blender query interface. -/
def Mat4 : Type := List (List ℚ)

/-- Row i, column j of a host matrix. -/
def matAt (m : Mat4) (i j : Nat) : ℚ := (m.getD i []).getD j 0

/-- ArmoryExporter.write_matrix (exporter.py lines 134-138): flatten the
16 entries row by row. -/
def write_matrix (m : Mat4) : List ℚ :=
  [matAt m 0 0, matAt m 0 1, matAt m 0 2, matAt m 0 3,
   matAt m 1 0, matAt m 1 1, matAt m 1 2, matAt m 1 3,
   matAt m 2 0, matAt m 2 1, matAt m 2 2, matAt m 2 3,
   matAt m 3 0, matAt m 3 1, matAt m 3 2, matAt m 3 3]

/-- ArmoryExporter.matrices_different (exporter.py lines 318-324): some
entry differs by more than ExportEpsilon. -/
def matrices_different (m1 m2 : Mat4) : Bool :=
  (List.range 4).any fun i => (List.range 4).any fun j =>
    fabs (matAt m1 i j - matAt m2 i j) > ExportEpsilon

/-- Python range(a, b) over integers. -/
def intRange (a b : Int) : List Int :=
  (List.range (b - a).toNat).map fun k => a + (k : Int)

/-- One exported animation track: target name, time array, flattened
value array. -/
structure Track where
  target : String
  times : List ℚ
  values : List ℚ

/-- The animation-detection loop shared by both sampled exporters
(exporter.py lines 583-588 and 635-640): seek each frame in turn and
stop at the first frame whose sampled matrix differs from the entry
matrix; returns the scene state after the loop and the flag. -/
def detectAnimation (sample : Scene → Mat4) (frames : List Int)
    (s : Scene) (m1 : Mat4) : Scene × Bool :=
  match frames with
  | [] => (s, false)
  | i :: rest =>
      let s2 := frame_set i 0
      if matrices_different m1 (sample s2) then (s2, true)
      else detectAnimation sample rest s2 m1

/-- The time array built by both sampled exporters (exporter.py lines
596-601 and 646-651): one entry (i - beginFrame) * frameTime per frame i
in range(beginFrame, endFrame), then one final entry endFrame *
frameTime (the absolute end frame, not the range-relative one). -/
def sampledTrackTimes (beginFrame endFrame : Int) (frameTime : ℚ) : List ℚ :=
  ((intRange beginFrame endFrame).map fun i =>
    ((i - beginFrame : Int) : ℚ) * frameTime) ++ [((endFrame : Int) : ℚ) * frameTime]

/-- The value array built by export_object_sampled_animation (exporter.py
lines 603-610): seek each frame of the range, write the sampled local
matrix, then seek endFrame and write once more; threads the scene. -/
def sampledTrackValues (sample : Scene → Mat4) (beginFrame endFrame : Int) :
    Scene × List ℚ :=
  let vals := (intRange beginFrame endFrame).foldl
    (fun acc i => acc ++ write_matrix (sample (frame_set i 0))) []
  let s3 := frame_set endFrame 0
  (s3, vals ++ write_matrix (sample s3))

/-- ArmoryExporter.export_object_sampled_animation (exporter.py lines
574-613): record the entry frame and subframe, detect animation by
frame-stepping, optionally build the matrix track, and restore the
scene with frame_set(currentFrame, currentSubframe) on the way out.
The sampled local matrix of the object is the host function sample. -/
def export_object_sampled_animation (sample : Scene → Mat4)
    (beginFrame endFrame : Int) (frameTime : ℚ) (s : Scene) :
    Scene × Option Track :=
  let currentFrame := s.frame
  let currentSubframe := s.subframe
  let m1 := sample s
  let det := detectAnimation sample (intRange beginFrame endFrame) s m1
  let out :=
    if det.2 then
      let times := sampledTrackTimes beginFrame endFrame frameTime
      let vals := sampledTrackValues sample beginFrame endFrame
      some ⟨"transform", times, vals.2⟩
    else none
  (frame_set currentFrame currentSubframe, out)

/-- get_action_framerange (exporter.py lines 615-622): the action's frame
range capped to the timeline bounds. -/
def get_action_framerange (beginFrame endFrame : Int)
    (action_frame_range : Int × Int) : Int × Int :=
  let begin_frame := if beginFrame > action_frame_range.1 then beginFrame
    else action_frame_range.1
  let end_frame := if endFrame < action_frame_range.2 then endFrame
    else action_frame_range.2
  (begin_frame, end_frame)

/-- ArmoryExporter.export_bone_sampled_animation (exporter.py lines
624-672): like the object version but over the capped action range, and
sampling either parent.matrix.inverted() * poseBone.matrix or
poseBone.matrix alone.  The mathutils inversion and multiplication are
host operations passed as minv and mmul. -/
def export_bone_sampled_animation (boneSample : Scene → Mat4)
    (parentSample : Option (Scene → Mat4)) (minv : Mat4 → Mat4)
    (mmul : Mat4 → Mat4 → Mat4) (beginFrame endFrame : Int) (frameTime : ℚ)
    (action_frame_range : Int × Int) (s : Scene) : Scene × Option Track :=
  let currentFrame := s.frame
  let currentSubframe := s.subframe
  let fr := get_action_framerange beginFrame endFrame action_frame_range
  let m1 := boneSample s
  let det := detectAnimation boneSample (intRange fr.1 fr.2) s m1
  let sampleAt : Scene → Mat4 :=
    match parentSample with
    | some ps => fun sc => mmul (minv (ps sc)) (boneSample sc)
    | none => boneSample
  let out :=
    if det.2 then
      let times := sampledTrackTimes fr.1 fr.2 frameTime
      let vals := sampledTrackValues sampleAt fr.1 fr.2
      some ⟨"transform", times, vals.2⟩
    else none
  (frame_set currentFrame currentSubframe, out)

/-- Claim C8: on every exit path of both sampled-animation exporters —
including the no-animation path where no track is produced — the scene's
frame and subframe are restored to their entry values. -/
theorem sampled_animation_restores_frame (sample boneSample : Scene → Mat4)
    (parentSample : Option (Scene → Mat4)) (minv : Mat4 → Mat4)
    (mmul : Mat4 → Mat4 → Mat4) (beginFrame endFrame : Int) (frameTime : ℚ)
    (action_frame_range : Int × Int) (s : Scene) :
    (export_object_sampled_animation sample beginFrame endFrame frameTime s).1 = s ∧
    (export_bone_sampled_animation boneSample parentSample minv mmul
      beginFrame endFrame frameTime action_frame_range s).1 = s := by
  cases s
  exact ⟨rfl, rfl⟩

/-- A host object whose local matrix places the current frame number in
entry (0,0): any two distinct frames sample to different matrices. -/
def movingSample : Scene → Mat4 := fun s =>
  [[(s.frame : ℚ), 0, 0, 0], [0, 1, 0, 0], [0, 0, 1, 0], [0, 0, 0, 1]]

/-- Claim C4 evaluated at beginFrame = 1, endFrame = 3, frameTime = 1 on
an animated object: the track's time array comes out as [0, 1, 3] —
the first entries are range-relative (i - beginFrame) * frameTime but
the final entry is the absolute endFrame * frameTime — so the array is
not the uniform [0, 1, 2] the claim requires, while the value array does
hold one flattened 4x4 matrix per frame of the inclusive range (48
floats for 3 frames). -/
theorem sampled_times_last_entry_absolute :
    (export_object_sampled_animation movingSample 1 3 1 ⟨5, 0⟩).2.map Track.times
        = some [0, 1, 3] ∧
    (export_object_sampled_animation movingSample 1 3 1 ⟨5, 0⟩).2.map
        (fun t => t.values.length) = some 48 ∧
    [(0 : ℚ), 1, 3] ≠ [0, 1, 2] := by
  refine ⟨?_, ?_, ?_⟩ <;> with_unfolding_all decide

/-- The ExportVertex record of exporter.py (lines 92-129): per-corner
position, normal, color, two texcoords, the owning face index, the
owning topological vertex index, and the content hash filled in by
Hash(). -/
structure ExportVertex where
  hash : Nat
  vertex_index : Nat
  face_index : Nat
  position : ℚ × ℚ × ℚ
  normal : ℚ × ℚ × ℚ
  color : ℚ × ℚ × ℚ
  texcoord0 : ℚ × ℚ
  texcoord1 : ℚ × ℚ
deriving DecidableEq

instance : Inhabited ExportVertex :=
  ⟨⟨0, 0, 0, (0, 0, 0), (0, 0, 0), (1, 1, 1), (0, 0), (0, 0)⟩⟩

/-- Python's built-in numeric hash, modelled as an injection-free map of
the exact rational to a natural number; the welding algorithm relies
only on equal values having equal hashes, which holds for any function
of the value. -/
def pyHashQ (q : ℚ) : Nat := q.num.natAbs * 2000003 + q.den

/-- ExportVertex.Hash (exporter.py lines 115-129): the multiplicative
polynomial h = h * 21737 + field over position, normal, color,
texcoord0, texcoord1 in that order, seeded with the first field. -/
def vertexHash (v : ExportVertex) : Nat :=
  let h := pyHashQ v.position.1
  let h := h * 21737 + pyHashQ v.position.2.1
  let h := h * 21737 + pyHashQ v.position.2.2
  let h := h * 21737 + pyHashQ v.normal.1
  let h := h * 21737 + pyHashQ v.normal.2.1
  let h := h * 21737 + pyHashQ v.normal.2.2
  let h := h * 21737 + pyHashQ v.color.1
  let h := h * 21737 + pyHashQ v.color.2.1
  let h := h * 21737 + pyHashQ v.color.2.2
  let h := h * 21737 + pyHashQ v.texcoord0.1
  let h := h * 21737 + pyHashQ v.texcoord0.2
  let h := h * 21737 + pyHashQ v.texcoord1.1
  let h := h * 21737 + pyHashQ v.texcoord1.2
  h

/-- ev.Hash() stores the content hash on the vertex. -/
def setHash (v : ExportVertex) : ExportVertex := { v with hash := vertexHash v }

/-- ExportVertex.__eq__ (exporter.py lines 100-113): hash, position,
normal, texcoord0, color and texcoord1 all compare equal (vertex_index
and face_index are not compared). -/
def evEq (a b : ExportVertex) : Bool :=
  a.hash == b.hash && a.position == b.position && a.normal == b.normal &&
  a.texcoord0 == b.texcoord0 && a.color == b.color && a.texcoord1 == b.texcoord1

/-- evEq unfolded to propositional equalities of the compared fields. -/
theorem evEq_iff (a b : ExportVertex) :
    evEq a b = true ↔
      a.hash = b.hash ∧ a.position = b.position ∧ a.normal = b.normal ∧
      a.texcoord0 = b.texcoord0 ∧ a.color = b.color ∧ a.texcoord1 = b.texcoord1 := by
  simp [evEq, Bool.and_eq_true, and_assoc]

/-- evEq is reflexive. -/
theorem evEq_refl (a : ExportVertex) : evEq a a = true := by
  simp [evEq_iff]

/-- evEq is symmetric. -/
theorem evEq_symm {a b : ExportVertex} (h : evEq a b = true) : evEq b a = true := by
  rw [evEq_iff] at h ⊢
  obtain ⟨h1, h2, h3, h4, h5, h6⟩ := h
  exact ⟨h1.symm, h2.symm, h3.symm, h4.symm, h5.symm, h6.symm⟩

/-- evEq is transitive. -/
theorem evEq_trans {a b c : ExportVertex} (h1 : evEq a b = true)
    (h2 : evEq b c = true) : evEq a c = true := by
  rw [evEq_iff] at h1 h2 ⊢
  obtain ⟨a1, a2, a3, a4, a5, a6⟩ := h1
  obtain ⟨b1, b2, b3, b4, b5, b6⟩ := h2
  exact ⟨a1.trans b1, a2.trans b2, a3.trans b3, a4.trans b4, a5.trans b5, a6.trans b6⟩

/-- evEq vertices carry the same stored hash. -/
theorem evEq_hash {a b : ExportVertex} (h : evEq a b = true) : a.hash = b.hash :=
  ((evEq_iff a b).mp h).1

/-- One topological mesh vertex of the host: rest position and shading
normal. -/
structure MVertex where
  co : ℚ × ℚ × ℚ
  normal : ℚ × ℚ × ℚ
deriving DecidableEq

instance : Inhabited MVertex := ⟨⟨(0, 0, 0), (0, 0, 0)⟩⟩

/-- One host tessellated face: 3 or 4 topological vertex indices, the
flat-shading flag, the face normal and the material slot. -/
structure TessFace where
  vertices : List Nat
  use_smooth : Bool
  normal : ℚ × ℚ × ℚ
  material_index : Nat
deriving DecidableEq

/-- Per-face UV data of one tessface UV layer (uv4 unused for
triangles). -/
structure UVFace where
  uv1 : ℚ × ℚ
  uv2 : ℚ × ℚ
  uv3 : ℚ × ℚ
  uv4 : ℚ × ℚ
deriving DecidableEq

/-- Per-face vertex-color data of the tessface color layer. -/
structure ColorFace where
  color1 : ℚ × ℚ × ℚ
  color2 : ℚ × ℚ × ℚ
  color3 : ℚ × ℚ × ℚ
  color4 : ℚ × ℚ × ℚ
deriving DecidableEq

/-- The host mesh as read by deindex_mesh: vertices, tessfaces, UV
layers and color layers. -/
structure BlMesh where
  vertices : List MVertex
  tessfaces : List TessFace
  tessface_uv_textures : List (List UVFace)
  tessface_vertex_colors : List (List ColorFace)
deriving DecidableEq

/-- One corner emitted by deindex_mesh (exporter.py lines 378-397): the
position of topological vertex k, the shading normal when the face is
smooth else the face normal, and default color and texcoords. -/
def cornerVertex (mesh : BlMesh) (face : TessFace) (face_index k : Nat) :
    ExportVertex :=
  let v := mesh.vertices.getD k default
  { hash := 0, vertex_index := k, face_index := face_index,
    position := v.co,
    normal := if face.use_smooth then v.normal else face.normal,
    color := (1, 1, 1), texcoord0 := (0, 0), texcoord1 := (0, 0) }

/-- The corners one tessface contributes in the first pass of
deindex_mesh (exporter.py lines 369-433): corners 0,1,2 and, for a quad,
also corners 0,2,3. -/
def faceVertices (mesh : BlMesh) (face : TessFace) (face_index : Nat) :
    List ExportVertex :=
  let base := [cornerVertex mesh face face_index (face.vertices.getD 0 0),
               cornerVertex mesh face face_index (face.vertices.getD 1 0),
               cornerVertex mesh face face_index (face.vertices.getD 2 0)]
  if face.vertices.length = 4 then
    base ++ [cornerVertex mesh face face_index (face.vertices.getD 0 0),
             cornerVertex mesh face face_index (face.vertices.getD 2 0),
             cornerVertex mesh face face_index (face.vertices.getD 3 0)]
  else base

/-- Number of corners a face contributes: 6 for a quad, else 3. -/
def faceSize (face : TessFace) : Nat := if face.vertices.length = 4 then 6 else 3

/-- First pass of deindex_mesh: the flat corner array before the color
and texcoord passes. -/
def deindexBase (mesh : BlMesh) : List ExportVertex :=
  mesh.tessfaces.enum.flatMap fun p => faceVertices mesh p.2 p.1

/-- The material table built alongside (exporter.py lines 399 and 431):
one entry per emitted triangle. -/
def materialTable (mesh : BlMesh) : List Nat :=
  mesh.tessfaces.flatMap fun f =>
    if f.vertices.length = 4 then [f.material_index, f.material_index]
    else [f.material_index]

/-- The face-walking update shared by the color and texcoord passes of
deindex_mesh (exporter.py lines 435-507): per face, update the next 3
corners (6 for a quad) of the running corner array with per-corner
values drawn from that face's layer data; corners are consumed in the
same order the first pass emitted them. -/
def applyFaceData {β γ : Type} (upd : ExportVertex → γ → ExportVertex)
    (triVals : β → γ × γ × γ) (quadVals : β → γ × γ × γ) :
    List (TessFace × β) → List ExportVertex → List ExportVertex
  | [], evs => evs
  | (f, d) :: rest, evs =>
      if f.vertices.length = 4 then
        match evs with
        | e1 :: e2 :: e3 :: e4 :: e5 :: e6 :: evs2 =>
            upd e1 (triVals d).1 :: upd e2 (triVals d).2.1 :: upd e3 (triVals d).2.2 ::
            upd e4 (quadVals d).1 :: upd e5 (quadVals d).2.1 :: upd e6 (quadVals d).2.2 ::
            applyFaceData upd triVals quadVals rest evs2
        | _ => evs
      else
        match evs with
        | e1 :: e2 :: e3 :: evs2 =>
            upd e1 (triVals d).1 :: upd e2 (triVals d).2.1 :: upd e3 (triVals d).2.2 ::
            applyFaceData upd triVals quadVals rest evs2
        | _ => evs

/-- Vertical flip of a UV coordinate as emitted by both export paths:
(u, v) becomes (u, 1 - v). -/
def uvFlip (uv : ℚ × ℚ) : ℚ × ℚ := (uv.1, 1 - uv.2)

/-- Corner color assignment. -/
def setColor (ev : ExportVertex) (c : ℚ × ℚ × ℚ) : ExportVertex :=
  { ev with color := c }

/-- Corner texcoord0 assignment. -/
def setT0 (ev : ExportVertex) (t : ℚ × ℚ) : ExportVertex :=
  { ev with texcoord0 := t }

/-- Corner texcoord1 assignment. -/
def setT1 (ev : ExportVertex) (t : ℚ × ℚ) : ExportVertex :=
  { ev with texcoord1 := t }

/-- The color pass (exporter.py lines 435-458): colors 1,2,3 then
1,3,4 for a quad's second triangle. -/
def applyColorFaces : List (TessFace × ColorFace) → List ExportVertex → List ExportVertex :=
  applyFaceData setColor (fun cf => (cf.color1, cf.color2, cf.color3))
    (fun cf => (cf.color1, cf.color3, cf.color4))

/-- The texcoord0 pass (exporter.py lines 460-483): each assignment is
the v-flipped corner UV (Reverse TCY). -/
def applyUV0Faces : List (TessFace × UVFace) → List ExportVertex → List ExportVertex :=
  applyFaceData setT0 (fun tf => (uvFlip tf.uv1, uvFlip tf.uv2, uvFlip tf.uv3))
    (fun tf => (uvFlip tf.uv1, uvFlip tf.uv3, uvFlip tf.uv4))

/-- The texcoord1 pass (exporter.py lines 485-507). -/
def applyUV1Faces : List (TessFace × UVFace) → List ExportVertex → List ExportVertex :=
  applyFaceData setT1 (fun tf => (uvFlip tf.uv1, uvFlip tf.uv2, uvFlip tf.uv3))
    (fun tf => (uvFlip tf.uv1, uvFlip tf.uv3, uvFlip tf.uv4))

/-- ArmoryExporter.deindex_mesh (exporter.py lines 361-512): first pass
positions and normals, then the optional color pass on layer 0, then the
optional texcoord passes on UV layers 0 and 1, then ev.Hash() on every
corner. -/
def deindex_mesh (mesh : BlMesh) : List ExportVertex :=
  let eva := deindexBase mesh
  let eva := if mesh.tessface_vertex_colors.length > 0 then
      applyColorFaces (mesh.tessfaces.zip (mesh.tessface_vertex_colors.getD 0 [])) eva
    else eva
  let eva := if mesh.tessface_uv_textures.length > 0 then
      let eva0 := applyUV0Faces (mesh.tessfaces.zip (mesh.tessface_uv_textures.getD 0 [])) eva
      if mesh.tessface_uv_textures.length > 1 then
        applyUV1Faces (mesh.tessfaces.zip (mesh.tessface_uv_textures.getD 1 [])) eva0
      else eva0
    else eva
  eva.map setHash

/-- The face-walking passes never change the number of corners. -/
theorem applyFaceData_length {β γ : Type} (upd : ExportVertex → γ → ExportVertex)
    (triVals quadVals : β → γ × γ × γ) (ps : List (TessFace × β)) :
    ∀ evs : List ExportVertex,
      (applyFaceData upd triVals quadVals ps evs).length = evs.length := by
  induction ps with
  | nil => intro evs; rfl
  | cons p rest ih =>
      intro evs
      obtain ⟨f, d⟩ := p
      by_cases hq : f.vertices.length = 4
      · match evs with
        | [] => simp [applyFaceData, hq]
        | [e1] => simp [applyFaceData, hq]
        | [e1, e2] => simp [applyFaceData, hq]
        | [e1, e2, e3] => simp [applyFaceData, hq]
        | [e1, e2, e3, e4] => simp [applyFaceData, hq]
        | [e1, e2, e3, e4, e5] => simp [applyFaceData, hq]
        | e1 :: e2 :: e3 :: e4 :: e5 :: e6 :: evs2 =>
            simp [applyFaceData, hq, ih evs2]
      · match evs with
        | [] => simp [applyFaceData, hq]
        | [e1] => simp [applyFaceData, hq]
        | [e1, e2] => simp [applyFaceData, hq]
        | e1 :: e2 :: e3 :: evs2 =>
            simp [applyFaceData, hq, ih evs2]

/-- When the corner array is exactly as long as the faces demand, every
corner coming out of a face-walking pass was written by it: it is some
previous corner updated with one of the six per-face values of some
face's layer datum. -/
theorem applyFaceData_mem {β γ : Type} (upd : ExportVertex → γ → ExportVertex)
    (triVals quadVals : β → γ × γ × γ) (ps : List (TessFace × β)) :
    ∀ evs : List ExportVertex,
      evs.length = (ps.map fun p => faceSize p.1).sum →
      ∀ ev ∈ applyFaceData upd triVals quadVals ps evs,
        ∃ d ∈ ps.map Prod.snd, ∃ e : ExportVertex, ∃ g : γ,
          (g = (triVals d).1 ∨ g = (triVals d).2.1 ∨ g = (triVals d).2.2 ∨
           g = (quadVals d).1 ∨ g = (quadVals d).2.1 ∨ g = (quadVals d).2.2) ∧
          ev = upd e g := by
  induction ps with
  | nil =>
      intro evs h ev hev
      have hnil : evs = [] := List.eq_nil_of_length_eq_zero (by simpa using h)
      subst hnil
      simp [applyFaceData] at hev
  | cons p rest ih =>
      intro evs h
      obtain ⟨f, d⟩ := p
      by_cases hq : f.vertices.length = 4
      · have hfs : faceSize f = 6 := by simp [faceSize, hq]
        rw [List.map_cons, List.sum_cons, hfs] at h
        match evs, h with
        | [], h => simp at h; omega
        | [e1], h => simp at h; omega
        | [e1, e2], h => simp at h; omega
        | [e1, e2, e3], h => simp at h; omega
        | [e1, e2, e3, e4], h => simp at h; omega
        | [e1, e2, e3, e4, e5], h => simp at h; omega
        | e1 :: e2 :: e3 :: e4 :: e5 :: e6 :: evs2, h =>
            intro ev hev
            simp only [applyFaceData, if_pos hq, List.mem_cons] at hev
            have h2 : evs2.length = (rest.map fun p => faceSize p.1).sum := by
              simp at h; omega
            rcases hev with rfl | rfl | rfl | rfl | rfl | rfl | hev
            · exact ⟨d, by simp, e1, _, Or.inl rfl, rfl⟩
            · exact ⟨d, by simp, e2, _, Or.inr (Or.inl rfl), rfl⟩
            · exact ⟨d, by simp, e3, _, Or.inr (Or.inr (Or.inl rfl)), rfl⟩
            · exact ⟨d, by simp, e4, _, Or.inr (Or.inr (Or.inr (Or.inl rfl))), rfl⟩
            · exact ⟨d, by simp, e5, _, Or.inr (Or.inr (Or.inr (Or.inr (Or.inl rfl)))), rfl⟩
            · exact ⟨d, by simp, e6, _, Or.inr (Or.inr (Or.inr (Or.inr (Or.inr rfl)))), rfl⟩
            · rcases ih evs2 h2 ev hev with ⟨d', hd', e, g, hg, he⟩
              exact ⟨d', by simp; exact Or.inr (by simpa using hd'), e, g, hg, he⟩
      · have hfs : faceSize f = 3 := by simp [faceSize, hq]
        rw [List.map_cons, List.sum_cons, hfs] at h
        match evs, h with
        | [], h => simp at h; omega
        | [e1], h => simp at h; omega
        | [e1, e2], h => simp at h; omega
        | e1 :: e2 :: e3 :: evs2, h =>
            intro ev hev
            simp only [applyFaceData, if_neg hq, List.mem_cons] at hev
            have h2 : evs2.length = (rest.map fun p => faceSize p.1).sum := by
              simp at h; omega
            rcases hev with rfl | rfl | rfl | hev
            · exact ⟨d, by simp, e1, _, Or.inl rfl, rfl⟩
            · exact ⟨d, by simp, e2, _, Or.inr (Or.inl rfl), rfl⟩
            · exact ⟨d, by simp, e3, _, Or.inr (Or.inr (Or.inl rfl)), rfl⟩
            · rcases ih evs2 h2 ev hev with ⟨d', hd', e, g, hg, he⟩
              exact ⟨d', by simp; exact Or.inr (by simpa using hd'), e, g, hg, he⟩

/-- A vertex property untouched by the updater survives a face-walking
pass. -/
theorem applyFaceData_preserve {β γ : Type} (upd : ExportVertex → γ → ExportVertex)
    (triVals quadVals : β → γ × γ × γ) (P : ExportVertex → Prop)
    (hupd : ∀ e g, P (upd e g) ↔ P e) (ps : List (TessFace × β)) :
    ∀ evs : List ExportVertex, (∀ e ∈ evs, P e) →
      ∀ e ∈ applyFaceData upd triVals quadVals ps evs, P e := by
  induction ps with
  | nil => intro evs hall e he; exact hall e he
  | cons p rest ih =>
      intro evs hall
      obtain ⟨f, d⟩ := p
      by_cases hq : f.vertices.length = 4
      · match evs with
        | [] => simp [applyFaceData, hq]
        | [e1] => simpa [applyFaceData, hq] using hall
        | [e1, e2] => simpa [applyFaceData, hq] using hall
        | [e1, e2, e3] => simpa [applyFaceData, hq] using hall
        | [e1, e2, e3, e4] => simpa [applyFaceData, hq] using hall
        | [e1, e2, e3, e4, e5] => simpa [applyFaceData, hq] using hall
        | e1 :: e2 :: e3 :: e4 :: e5 :: e6 :: evs2 =>
            intro e he
            simp only [applyFaceData, if_pos hq, List.mem_cons] at he
            rcases he with rfl | rfl | rfl | rfl | rfl | rfl | he
            · exact (hupd _ _).mpr (hall e1 (by simp))
            · exact (hupd _ _).mpr (hall e2 (by simp))
            · exact (hupd _ _).mpr (hall e3 (by simp))
            · exact (hupd _ _).mpr (hall e4 (by simp))
            · exact (hupd _ _).mpr (hall e5 (by simp))
            · exact (hupd _ _).mpr (hall e6 (by simp))
            · exact ih evs2 (fun x hx => hall x (by simp [hx])) e he
      · match evs with
        | [] => simp [applyFaceData, hq]
        | [e1] => simpa [applyFaceData, hq] using hall
        | [e1, e2] => simpa [applyFaceData, hq] using hall
        | e1 :: e2 :: e3 :: evs2 =>
            intro e he
            simp only [applyFaceData, if_neg hq, List.mem_cons] at he
            rcases he with rfl | rfl | rfl | he
            · exact (hupd _ _).mpr (hall e1 (by simp))
            · exact (hupd _ _).mpr (hall e2 (by simp))
            · exact (hupd _ _).mpr (hall e3 (by simp))
            · exact ih evs2 (fun x hx => hall x (by simp [hx])) e he

/-- Each face contributes exactly faceSize corners in the first pass. -/
theorem faceVertices_length (mesh : BlMesh) (face : TessFace) (i : Nat) :
    (faceVertices mesh face i).length = faceSize face := by
  rw [faceVertices, faceSize]
  split <;> simp

/-- The first pass emits the sum of the per-face corner counts. -/
theorem deindexBase_length (mesh : BlMesh) :
    (deindexBase mesh).length = (mesh.tessfaces.map faceSize).sum := by
  have h : ∀ l : List (Nat × TessFace),
      (l.flatMap fun p => faceVertices mesh p.2 p.1).length
        = (l.map fun p => faceSize p.2).sum := by
    intro l
    induction l with
    | nil => rfl
    | cons a t ih => simp [List.flatMap_cons, faceVertices_length, ih]
  rw [deindexBase, h,
    show (fun p : Nat × TessFace => faceSize p.2) = faceSize ∘ Prod.snd from rfl,
    ← List.map_map, List.enum_map_snd]

/-- 3 or 6 corners per face always sums to a multiple of 3. -/
theorem sum_faceSize_mod3 (fs : List TessFace) : (fs.map faceSize).sum % 3 = 0 := by
  induction fs with
  | nil => rfl
  | cons f rest ih =>
      rw [List.map_cons, List.sum_cons]
      have h : faceSize f = 6 ∨ faceSize f = 3 := by
        rw [faceSize]; split
        · exact Or.inl rfl
        · exact Or.inr rfl
      omega

/-- deindex_mesh emits the sum of the per-face corner counts: the color
and texcoord passes and the hashing pass never change the length. -/
theorem deindex_mesh_length (mesh : BlMesh) :
    (deindex_mesh mesh).length = (mesh.tessfaces.map faceSize).sum := by
  rw [deindex_mesh]
  simp [apply_ite List.length, applyColorFaces, applyUV0Faces, applyUV1Faces,
    applyFaceData_length, deindexBase_length]

/-- The four v-flipped corner UVs of one face's layer datum. -/
def uvFlips (tf : UVFace) : List (ℚ × ℚ) :=
  [uvFlip tf.uv1, uvFlip tf.uv2, uvFlip tf.uv3, uvFlip tf.uv4]

/-- Every corner produced by the texcoord0 pass carries the v-flip of
one of its face's source corner UVs. -/
theorem applyUV0_texcoord0 (ps : List (TessFace × UVFace))
    (evs : List ExportVertex)
    (halign : evs.length = (ps.map fun p => faceSize p.1).sum) :
    ∀ ev ∈ applyUV0Faces ps evs,
      ∃ tf ∈ ps.map Prod.snd, ev.texcoord0 ∈ uvFlips tf := by
  intro ev hev
  rcases applyFaceData_mem setT0 _ _ ps evs halign ev hev with
    ⟨tf, htf, e, g, hg, rfl⟩
  refine ⟨tf, htf, ?_⟩
  show g ∈ uvFlips tf
  rcases hg with rfl | rfl | rfl | rfl | rfl | rfl <;> simp [uvFlips]

/-- Every corner produced by the texcoord1 pass carries the v-flip of
one of its face's source corner UVs in texcoord1. -/
theorem applyUV1_texcoord1 (ps : List (TessFace × UVFace))
    (evs : List ExportVertex)
    (halign : evs.length = (ps.map fun p => faceSize p.1).sum) :
    ∀ ev ∈ applyUV1Faces ps evs,
      ∃ tf ∈ ps.map Prod.snd, ev.texcoord1 ∈ uvFlips tf := by
  intro ev hev
  rcases applyFaceData_mem setT1 _ _ ps evs halign ev hev with
    ⟨tf, htf, e, g, hg, rfl⟩
  refine ⟨tf, htf, ?_⟩
  show g ∈ uvFlips tf
  rcases hg with rfl | rfl | rfl | rfl | rfl | rfl <;> simp [uvFlips]

/-- The texcoord1 pass does not disturb texcoord0. -/
theorem applyUV1_keeps_texcoord0 (data0 : List UVFace)
    (ps : List (TessFace × UVFace)) (evs : List ExportVertex)
    (hall : ∀ e ∈ evs, ∃ tf ∈ data0, e.texcoord0 ∈ uvFlips tf) :
    ∀ e ∈ applyUV1Faces ps evs, ∃ tf ∈ data0, e.texcoord0 ∈ uvFlips tf := by
  exact applyFaceData_preserve setT1 _ _
    (fun e => ∃ tf ∈ data0, e.texcoord0 ∈ uvFlips tf)
    (fun e g => Iff.rfl) ps evs hall

/-- Zipping faces with one aligned data layer keeps the corner-count
sum. -/
theorem zip_faceSize_sum {β : Type} (fs : List TessFace) (ds : List β)
    (h : ds.length = fs.length) :
    ((fs.zip ds).map fun p => faceSize p.1).sum = (fs.map faceSize).sum := by
  rw [show (fun p : TessFace × β => faceSize p.1) = faceSize ∘ Prod.fst from rfl,
    ← List.map_map, List.map_fst_zip fs ds (by omega)]

/-- The Vertex record of the fast mesh path (exporter.py lines 52-74). -/
structure Vertex where
  vertex_index : Nat
  co : ℚ × ℚ × ℚ
  normal : ℚ × ℚ × ℚ
  uvs : List (ℚ × ℚ)
  col : ℚ × ℚ × ℚ
  loop_indices : List Nat
  index : Nat
deriving DecidableEq

/-- The t0data array built by export_mesh_fast (exporter.py lines
1695-1697): per vertex, uvs[0].x then 1.0 - uvs[0].y (Reverse TCY),
written at positions i*2 and i*2+1. -/
def fast_t0data (vert_list : List Vertex) : List ℚ :=
  vert_list.flatMap fun v =>
    [(v.uvs.getD 0 (0, 0)).1, 1 - (v.uvs.getD 0 (0, 0)).2]

/-- The t1data array built by export_mesh_fast (exporter.py lines
1698-1700) from uvs[1]. -/
def fast_t1data (vert_list : List Vertex) : List ℚ :=
  vert_list.flatMap fun v =>
    [(v.uvs.getD 1 (0, 0)).1, 1 - (v.uvs.getD 1 (0, 0)).2]

/-- Indexing into a flatMap of two-element blocks. -/
theorem flatMap_pair_getD {α : Type} (f g : α → ℚ) (l : List α) :
    ∀ i, (h : i < l.length) →
      (l.flatMap fun v => [f v, g v]).getD (2 * i) 0 = f l[i] ∧
      (l.flatMap fun v => [f v, g v]).getD (2 * i + 1) 0 = g l[i] := by
  induction l with
  | nil => intro i h; simp at h
  | cons a t ih =>
      intro i h
      cases i with
      | zero => exact ⟨rfl, rfl⟩
      | succ j =>
          have hj : j < t.length := by simpa using h
          have h1 : 2 * (j + 1) = 2 * j + 1 + 1 := by ring
          have h2 : 2 * (j + 1) + 1 = 2 * j + 1 + 1 + 1 := by ring
          rw [List.flatMap_cons]
          constructor
          · rw [h1]
            show (f a :: g a :: t.flatMap fun v => [f v, g v]).getD (2 * j + 1 + 1) 0 = _
            rw [List.getD_cons_succ, List.getD_cons_succ]
            simpa using (ih j hj).1
          · rw [h2]
            show (f a :: g a :: t.flatMap fun v => [f v, g v]).getD (2 * j + 1 + 1 + 1) 0 = _
            rw [List.getD_cons_succ, List.getD_cons_succ]
            simpa using (ih j hj).2

/-- The corner source UVs a face consumes from its layer datum, in the
emission order of deindex_mesh: corners 1,2,3, then 1,3,4 for the
quad's second triangle (matching the corner emission order of the first
pass). -/
def faceCornerUVs (f : TessFace) (tf : UVFace) : List (ℚ × ℚ) :=
  if f.vertices.length = 4 then [tf.uv1, tf.uv2, tf.uv3, tf.uv1, tf.uv3, tf.uv4]
  else [tf.uv1, tf.uv2, tf.uv3]

/-- Positional description of a face-walking pass when the corner array
is exactly as long as the faces demand: reading the written attribute
back yields, corner for corner, the per-face values in emission
order. -/
theorem applyFaceData_map_proj {β γ : Type} (upd : ExportVertex → γ → ExportVertex)
    (triVals quadVals : β → γ × γ × γ) (proj : ExportVertex → γ)
    (hproj : ∀ e g, proj (upd e g) = g) (ps : List (TessFace × β)) :
    ∀ evs : List ExportVertex,
      evs.length = (ps.map fun p => faceSize p.1).sum →
      (applyFaceData upd triVals quadVals ps evs).map proj
        = ps.flatMap fun p =>
            if p.1.vertices.length = 4 then
              [(triVals p.2).1, (triVals p.2).2.1, (triVals p.2).2.2,
               (quadVals p.2).1, (quadVals p.2).2.1, (quadVals p.2).2.2]
            else [(triVals p.2).1, (triVals p.2).2.1, (triVals p.2).2.2] := by
  induction ps with
  | nil =>
      intro evs h
      have hnil : evs = [] := List.eq_nil_of_length_eq_zero (by simpa using h)
      subst hnil
      rfl
  | cons p rest ih =>
      intro evs h
      obtain ⟨f, d⟩ := p
      by_cases hq : f.vertices.length = 4
      · have hfs : faceSize f = 6 := by simp [faceSize, hq]
        rw [List.map_cons, List.sum_cons, hfs] at h
        match evs, h with
        | [], h => simp at h; omega
        | [e1], h => simp at h; omega
        | [e1, e2], h => simp at h; omega
        | [e1, e2, e3], h => simp at h; omega
        | [e1, e2, e3, e4], h => simp at h; omega
        | [e1, e2, e3, e4, e5], h => simp at h; omega
        | e1 :: e2 :: e3 :: e4 :: e5 :: e6 :: evs2, h =>
            have h2 : evs2.length = (rest.map fun p => faceSize p.1).sum := by
              simp at h; omega
            simp only [applyFaceData, if_pos hq, List.map_cons, hproj]
            rw [ih evs2 h2, List.flatMap_cons, if_pos hq]
            rfl
      · have hfs : faceSize f = 3 := by simp [faceSize, hq]
        rw [List.map_cons, List.sum_cons, hfs] at h
        match evs, h with
        | [], h => simp at h; omega
        | [e1], h => simp at h; omega
        | [e1, e2], h => simp at h; omega
        | e1 :: e2 :: e3 :: evs2, h =>
            have h2 : evs2.length = (rest.map fun p => faceSize p.1).sum := by
              simp at h; omega
            simp only [applyFaceData, if_neg hq, List.map_cons, hproj]
            rw [ih evs2 h2, List.flatMap_cons, if_neg hq]
            rfl

/-- A pass whose updater leaves an attribute unchanged leaves the whole
attribute stream unchanged. -/
theorem applyFaceData_map_invariant {β γ δ : Type} (upd : ExportVertex → γ → ExportVertex)
    (triVals quadVals : β → γ × γ × γ) (proj : ExportVertex → δ)
    (hproj : ∀ e g, proj (upd e g) = proj e) (ps : List (TessFace × β)) :
    ∀ evs : List ExportVertex,
      (applyFaceData upd triVals quadVals ps evs).map proj = evs.map proj := by
  induction ps with
  | nil => intro evs; rfl
  | cons p rest ih =>
      intro evs
      obtain ⟨f, d⟩ := p
      by_cases hq : f.vertices.length = 4
      · match evs with
        | [] => simp [applyFaceData, hq]
        | [e1] => simp [applyFaceData, hq]
        | [e1, e2] => simp [applyFaceData, hq]
        | [e1, e2, e3] => simp [applyFaceData, hq]
        | [e1, e2, e3, e4] => simp [applyFaceData, hq]
        | [e1, e2, e3, e4, e5] => simp [applyFaceData, hq]
        | e1 :: e2 :: e3 :: e4 :: e5 :: e6 :: evs2 =>
            simp only [applyFaceData, if_pos hq, List.map_cons, hproj, ih evs2]
      · match evs with
        | [] => simp [applyFaceData, hq]
        | [e1] => simp [applyFaceData, hq]
        | [e1, e2] => simp [applyFaceData, hq]
        | e1 :: e2 :: e3 :: evs2 =>
            simp only [applyFaceData, if_neg hq, List.map_cons, hproj, ih evs2]

/-- The texcoord0 stream after the texcoord0 pass is, corner for
corner, the v-flip of each corner's own source UV. -/
theorem applyUV0_map (ps : List (TessFace × UVFace)) (evs : List ExportVertex)
    (halign : evs.length = (ps.map fun p => faceSize p.1).sum) :
    (applyUV0Faces ps evs).map ExportVertex.texcoord0
      = ps.flatMap fun p => (faceCornerUVs p.1 p.2).map uvFlip := by
  rw [applyUV0Faces,
    applyFaceData_map_proj setT0 _ _ ExportVertex.texcoord0 (fun e g => rfl) ps evs halign]
  congr 1
  funext p
  obtain ⟨f, tf⟩ := p
  rw [faceCornerUVs]
  by_cases hq : f.vertices.length = 4
  · rw [if_pos hq, if_pos hq]
    rfl
  · rw [if_neg hq, if_neg hq]
    rfl

/-- The texcoord1 stream after the texcoord1 pass is, corner for
corner, the v-flip of each corner's own source UV. -/
theorem applyUV1_map (ps : List (TessFace × UVFace)) (evs : List ExportVertex)
    (halign : evs.length = (ps.map fun p => faceSize p.1).sum) :
    (applyUV1Faces ps evs).map ExportVertex.texcoord1
      = ps.flatMap fun p => (faceCornerUVs p.1 p.2).map uvFlip := by
  rw [applyUV1Faces,
    applyFaceData_map_proj setT1 _ _ ExportVertex.texcoord1 (fun e g => rfl) ps evs halign]
  congr 1
  funext p
  obtain ⟨f, tf⟩ := p
  rw [faceCornerUVs]
  by_cases hq : f.vertices.length = 4
  · rw [if_pos hq, if_pos hq]
    rfl
  · rw [if_neg hq, if_neg hq]
    rfl

/-- The texcoord1 pass does not disturb the texcoord0 stream. -/
theorem applyUV1_map_texcoord0 (ps : List (TessFace × UVFace))
    (evs : List ExportVertex) :
    (applyUV1Faces ps evs).map ExportVertex.texcoord0
      = evs.map ExportVertex.texcoord0 :=
  applyFaceData_map_invariant setT1 _ _ ExportVertex.texcoord0
    (fun _ _ => rfl) ps evs

/-- Hashing does not disturb the texcoord0 stream. -/
theorem map_texcoord0_setHash (l : List ExportVertex) :
    (l.map setHash).map ExportVertex.texcoord0 = l.map ExportVertex.texcoord0 := by
  rw [List.map_map]
  rfl

/-- Hashing does not disturb the texcoord1 stream. -/
theorem map_texcoord1_setHash (l : List ExportVertex) :
    (l.map setHash).map ExportVertex.texcoord1 = l.map ExportVertex.texcoord1 := by
  rw [List.map_map]
  rfl

/-- Claim C10: in both mesh export paths every emitted UV coordinate is
vertically flipped, corner for corner.  For deindex_mesh (with UV data
aligned one face datum per tessface, as the host guarantees), the
texcoord0 values of the emitted corners are, positionally in emission
order, the (u, 1-v) flips of each corner's own source UV from layer 0 —
and likewise texcoord1 from layer 1 when present.  For
export_mesh_fast, entries 2i and 2i+1 of t0data/t1data are uvs[k].x and
1 - uvs[k].y of vertex i. -/
theorem uv_vertical_flip (mesh : BlMesh) (fast : List Vertex) (i : Nat) :
    (mesh.tessface_uv_textures.length > 0 →
     (mesh.tessface_uv_textures.getD 0 []).length = mesh.tessfaces.length →
     (mesh.tessface_uv_textures.length > 1 →
       (mesh.tessface_uv_textures.getD 1 []).length = mesh.tessfaces.length) →
     ((deindex_mesh mesh).map ExportVertex.texcoord0
        = (mesh.tessfaces.zip (mesh.tessface_uv_textures.getD 0 [])).flatMap
            fun p => (faceCornerUVs p.1 p.2).map uvFlip) ∧
     (mesh.tessface_uv_textures.length > 1 →
       (deindex_mesh mesh).map ExportVertex.texcoord1
         = (mesh.tessfaces.zip (mesh.tessface_uv_textures.getD 1 [])).flatMap
             fun p => (faceCornerUVs p.1 p.2).map uvFlip)) ∧
    (∀ hi : i < fast.length,
      (fast_t0data fast).getD (2 * i) 0 = (fast[i].uvs.getD 0 (0, 0)).1 ∧
      (fast_t0data fast).getD (2 * i + 1) 0 = 1 - (fast[i].uvs.getD 0 (0, 0)).2 ∧
      (fast_t1data fast).getD (2 * i) 0 = (fast[i].uvs.getD 1 (0, 0)).1 ∧
      (fast_t1data fast).getD (2 * i + 1) 0 = 1 - (fast[i].uvs.getD 1 (0, 0)).2) := by
  constructor
  · intro huv hal0 hal1c
    have hlenC :
        (if mesh.tessface_vertex_colors.length > 0 then
          applyColorFaces (mesh.tessfaces.zip (mesh.tessface_vertex_colors.getD 0 []))
            (deindexBase mesh)
         else deindexBase mesh).length = (mesh.tessfaces.map faceSize).sum := by
      split
      · simp [applyColorFaces, applyFaceData_length, deindexBase_length]
      · exact deindexBase_length mesh
    have halign0 : (if mesh.tessface_vertex_colors.length > 0 then
          applyColorFaces (mesh.tessfaces.zip (mesh.tessface_vertex_colors.getD 0 []))
            (deindexBase mesh)
         else deindexBase mesh).length =
        (((mesh.tessfaces.zip (mesh.tessface_uv_textures.getD 0 [])).map
          fun p => faceSize p.1).sum) := by
      rw [hlenC, zip_faceSize_sum _ _ hal0]
    by_cases h2 : mesh.tessface_uv_textures.length > 1
    · constructor
      · simp only [deindex_mesh]
        rw [if_pos huv, if_pos h2, map_texcoord0_setHash, applyUV1_map_texcoord0,
          applyUV0_map _ _ halign0]
      · intro _
        have halign1 : (applyUV0Faces
            (mesh.tessfaces.zip (mesh.tessface_uv_textures.getD 0 []))
            (if mesh.tessface_vertex_colors.length > 0 then
              applyColorFaces (mesh.tessfaces.zip (mesh.tessface_vertex_colors.getD 0 []))
                (deindexBase mesh)
             else deindexBase mesh)).length =
            (((mesh.tessfaces.zip (mesh.tessface_uv_textures.getD 1 [])).map
              fun p => faceSize p.1).sum) := by
          simp only [applyUV0Faces]
          rw [applyFaceData_length, hlenC, zip_faceSize_sum _ _ (hal1c h2)]
        simp only [deindex_mesh]
        rw [if_pos huv, if_pos h2, map_texcoord1_setHash, applyUV1_map _ _ halign1]
    · constructor
      · simp only [deindex_mesh]
        rw [if_pos huv, if_neg h2, map_texcoord0_setHash, applyUV0_map _ _ halign0]
      · intro hcontra
        exact absurd hcontra h2
  · intro hi
    rcases flatMap_pair_getD (fun v => (v.uvs.getD 0 (0, 0)).1)
      (fun v => 1 - (v.uvs.getD 0 (0, 0)).2) fast i hi with ⟨h1, h2⟩
    rcases flatMap_pair_getD (fun v => (v.uvs.getD 1 (0, 0)).1)
      (fun v => 1 - (v.uvs.getD 1 (0, 0)).2) fast i hi with ⟨h3, h4⟩
    exact ⟨h1, h2, h3, h4⟩

/-- A one-triangle mesh with one UV layer whose first corner UV is
(1/2, 1/4). -/
def meshC10 : BlMesh :=
  { vertices := [⟨(0, 0, 0), (0, 0, 1)⟩],
    tessfaces := [⟨[0, 0, 0], false, (0, 0, 1), 0⟩],
    tessface_uv_textures := [[⟨(1/2, 1/4), (0, 0), (1, 1), (0, 1)⟩]],
    tessface_vertex_colors := [] }

/-- A fast-path vertex with uvs [(1/2, 1/4), (1/3, 1)]. -/
def vertC10 : Vertex :=
  ⟨0, (0, 0, 0), (0, 0, 1), [(1/2, 1/4), (1/3, 1)], (1, 1, 1), [0], 0⟩

/-- Witness for C10 at the concrete one-triangle mesh and a concrete
fast-path vertex list. -/
theorem uv_vertical_flip_witness :
    ((deindex_mesh meshC10).map ExportVertex.texcoord0
      = (meshC10.tessfaces.zip (meshC10.tessface_uv_textures.getD 0 [])).flatMap
          fun p => (faceCornerUVs p.1 p.2).map uvFlip) ∧
    (fast_t0data [vertC10]).getD 0 0 = (1 : ℚ) / 2 :=
  ⟨((uv_vertical_flip meshC10 [vertC10] 0).1 (by decide) (by decide)
      (fun h => absurd h (by decide))).1,
   (((uv_vertical_flip meshC10 [vertC10] 0).2 (by decide)).1).trans
     (by with_unfolding_all decide)⟩

/-- List.set then read back at the written index. -/
theorem getD_set_self {α : Type} (l : List α) (i : Nat) (a d : α)
    (h : i < l.length) : (l.set i a).getD i d = a := by
  induction l generalizing i with
  | nil => simp at h
  | cons x t ih =>
      cases i with
      | zero => rfl
      | succ j => simpa [List.set] using ih j (by simpa using h)

/-- List.set leaves other indices alone. -/
theorem getD_set_ne {α : Type} (l : List α) (i j : Nat) (a d : α)
    (h : i ≠ j) : (l.set i a).getD j d = l.getD j d := by
  induction l generalizing i j with
  | nil => rfl
  | cons x t ih =>
      cases i with
      | zero =>
          cases j with
          | zero => exact absurd rfl h
          | succ m => rfl
      | succ n =>
          cases j with
          | zero => rfl
          | succ m => simpa [List.set] using ih n m (by omega)

/-- An in-bounds getD is a member. -/
theorem getD_mem {α : Type} (l : List α) (i : Nat) (d : α)
    (h : i < l.length) : l.getD i d ∈ l := by
  rw [listGetD_eq l i d h]
  exact List.getElem_mem h

/-- getD of replicate at the replicated value. -/
theorem getD_replicate {α : Type} (x : α) (n i : Nat) :
    (List.replicate n x).getD i x = x := by
  induction n generalizing i with
  | zero => cases i <;> rfl
  | succ m ih =>
      cases i with
      | zero => rfl
      | succ j => exact ih j

/-- take (n+1) appends the n-th element. -/
theorem take_succ_getD {α : Type} (l : List α) (n : Nat) (d : α)
    (h : n < l.length) : l.take (n + 1) = l.take n ++ [l.getD n d] := by
  rw [List.take_succ, listGetD_eq l n d h]
  congr 1
  rw [List.getElem?_eq_getElem h]
  rfl

/-- Members of a take-prefix are getD values at earlier indices. -/
theorem mem_take_exists {α : Type} (l : List α) (n : Nat) (d : α) :
    ∀ u ∈ l.take n, ∃ k, k < n ∧ k < l.length ∧ u = l.getD k d := by
  intro u hu
  obtain ⟨k, hk, hu'⟩ := List.getElem_of_mem hu
  have hlen := hk
  rw [List.length_take] at hlen
  have hkl : k < l.length := lt_of_lt_of_le hlen (min_le_right n l.length)
  have hkn : k < n := lt_of_lt_of_le hlen (min_le_left n l.length)
  refine ⟨k, hkn, hkl, ?_⟩
  rw [listGetD_eq l k d hkl, ← hu']
  exact List.getElem_take l

/-- Early getD values are members of the take-prefix. -/
theorem getD_mem_take {α : Type} (l : List α) (n k : Nat) (d : α)
    (hkn : k < n) (hkl : k < l.length) : l.getD k d ∈ l.take n := by
  have hk : k < (l.take n).length := by
    rw [List.length_take]; omega
  have hEq : (l.take n)[k] = l[k] := List.getElem_take l
  rw [listGetD_eq l k d hkl, ← hEq]
  exact List.getElem_mem hk

/-- The welding output in the spec's words: the deduplicated vertices
kept in first-occurrence order, where duplicates are detected with the
ExportVertex equality evEq. -/
def dedupFirst (l : List ExportVertex) : List ExportVertex :=
  l.foldl (fun acc v => if acc.any fun u => evEq u v then acc else acc ++ [v]) []

/-- Unfolding dedupFirst over a final element. -/
theorem dedupFirst_append (l : List ExportVertex) (v : ExportVertex) :
    dedupFirst (l ++ [v]) =
      if (dedupFirst l).any fun u => evEq u v then dedupFirst l
      else dedupFirst l ++ [v] := by
  rw [dedupFirst, List.foldl_append]
  rfl

/-- dedupFirst keeps only input elements. -/
theorem dedupFirst_subset (l : List ExportVertex) :
    ∀ u ∈ dedupFirst l, u ∈ l := by
  induction l using List.reverseRecOn with
  | nil => intro u hu; simp [dedupFirst] at hu
  | append_singleton t v ih =>
      intro u hu
      rw [dedupFirst_append] at hu
      by_cases h : (dedupFirst t).any fun w => evEq w v
      · rw [if_pos h] at hu
        exact List.mem_append_left _ (ih u hu)
      · rw [if_neg h] at hu
        rcases List.mem_append.mp hu with hu' | hu'
        · exact List.mem_append_left _ (ih u hu')
        · exact List.mem_append_right _ hu'

/-- Every input element has an evEq representative in dedupFirst. -/
theorem dedupFirst_covers (l : List ExportVertex) :
    ∀ u ∈ l, ∃ w ∈ dedupFirst l, evEq w u = true := by
  induction l using List.reverseRecOn with
  | nil => simp
  | append_singleton t x ih =>
      intro u hu
      rw [dedupFirst_append]
      rcases List.mem_append.mp hu with hu' | hu'
      · obtain ⟨w, hw, hwu⟩ := ih u hu'
        split
        · exact ⟨w, hw, hwu⟩
        · exact ⟨w, List.mem_append_left _ hw, hwu⟩
      · rw [List.mem_singleton] at hu'
        subst hu'
        by_cases h : (dedupFirst t).any fun w => evEq w u
        · rw [if_pos h]
          obtain ⟨w, hw, hwu⟩ := List.any_eq_true.mp h
          exact ⟨w, hw, hwu⟩
        · rw [if_neg h]
          exact ⟨u, List.mem_append_right _ (List.mem_singleton_self u), evEq_refl u⟩

/-- dedupFirst has an evEq-match for v exactly when the input does. -/
theorem dedupFirst_any (l : List ExportVertex) (v : ExportVertex) :
    ((dedupFirst l).any fun u => evEq u v) = (l.any fun u => evEq u v) := by
  rw [Bool.eq_iff_iff]
  simp only [List.any_eq_true]
  constructor
  · rintro ⟨u, hu, huv⟩
    exact ⟨u, dedupFirst_subset l u hu, huv⟩
  · rintro ⟨u, hu, huv⟩
    obtain ⟨w, hw, hwu⟩ := dedupFirst_covers l u hu
    exact ⟨w, hw, evEq_trans hwu huv⟩

/-- Every evEq-match has a first occurrence with the same evEq class. -/
def isFirstOcc (input : List ExportVertex) (j : Nat) : Prop :=
  ∀ k, k < j → evEq (input.getD k default) (input.getD j default) = false

/-- An evEq-match at index k yields a first-occurrence match at some
index at most k. -/
theorem exists_firstOcc (input : List ExportVertex) (v : ExportVertex) :
    ∀ k, evEq (input.getD k default) v = true →
      ∃ j, j ≤ k ∧ isFirstOcc input j ∧ evEq (input.getD j default) v = true := by
  intro k
  induction k using Nat.strong_induction_on with
  | _ k ih =>
      intro hk
      by_cases hfo : isFirstOcc input k
      · exact ⟨k, le_refl k, hfo, hk⟩
      · rw [isFirstOcc] at hfo
        push_neg at hfo
        obtain ⟨m, hm, hne⟩ := hfo
        have hmeq : evEq (input.getD m default) (input.getD k default) = true := by
          cases hx : evEq (input.getD m default) (input.getD k default)
          · exact absurd hx hne
          · rfl
        have hmv : evEq (input.getD m default) v = true := evEq_trans hmeq hk
        obtain ⟨j, hj, hfo', hjv⟩ := ih m hm hmv
        exact ⟨j, le_trans hj (le_of_lt hm), hfo', hjv⟩

/-- Mutable state of the unify_vertices loop: the bucketed hash table of
first-occurrence input indices, the growing unified vertex array, and
the growing index table. -/
structure UnifyState where
  hashTable : List (List Nat)
  unifiedVA : List ExportVertex
  indexTable : List Nat
deriving DecidableEq

/-- One iteration of the unify_vertices loop (exporter.py lines
532-547): bucket the i-th vertex by hash, linear-scan the bucket for an
evEq match among recorded first occurrences; on a hit append the
matched slot's unified index, on a miss record a new unified vertex,
append its index, and add i to the bucket. -/
def unifyStep (input : List ExportVertex) (bucketCount : Nat)
    (st : UnifyState) (i : Nat) : UnifyState :=
  let ev := input.getD i default
  let bucket := ev.hash &&& (bucketCount - 1)
  let bl := st.hashTable.getD bucket []
  match bl.find? (fun b => evEq (input.getD b default) ev) with
  | some b => ⟨st.hashTable, st.unifiedVA,
      st.indexTable ++ [st.indexTable.getD b 0]⟩
  | none => ⟨st.hashTable.set bucket (bl ++ [i]),
      st.unifiedVA ++ [ev],
      st.indexTable ++ [st.unifiedVA.length]⟩

/-- The first n iterations of the unify_vertices loop from the empty
state. -/
def unifyFold (input : List ExportVertex) (bc n : Nat) : UnifyState :=
  (List.range n).foldl (unifyStep input bc) ⟨List.replicate bc [], [], []⟩

/-- ArmoryExporter.unify_vertices (exporter.py lines 514-549): build the
power-of-two bucket table, run the loop over every input vertex, and
return the unified vertex array together with the index table. -/
def unify_vertices (input : List ExportVertex) : List ExportVertex × List Nat :=
  let st := unifyFold input (bucketCountOf input.length) input.length
  (st.unifiedVA, st.indexTable)

/-- Unfolding one more loop iteration. -/
theorem unifyFold_succ (input : List ExportVertex) (bc n : Nat) :
    unifyFold input bc (n + 1) = unifyStep input bc (unifyFold input bc n) n := by
  rw [unifyFold, List.range_succ, List.foldl_append]
  rfl

/-- The loop invariant of unify_vertices after n iterations: the
unified array is the dedup of the processed prefix, the index table has
one in-range entry per processed vertex, and the hash table holds
exactly the first occurrences, each in its hash bucket. -/
def UnifyInv (input : List ExportVertex) (bc n : Nat) (st : UnifyState) : Prop :=
  st.unifiedVA = dedupFirst (input.take n) ∧
  st.indexTable.length = n ∧
  (∀ x ∈ st.indexTable, x < st.unifiedVA.length) ∧
  st.hashTable.length = bc ∧
  (∀ m : Nat, ∀ b ∈ st.hashTable.getD m [], b < n ∧
      (input.getD b default).hash &&& (bc - 1) = m ∧ isFirstOcc input b) ∧
  (∀ j, j < n → isFirstOcc input j →
      j ∈ st.hashTable.getD ((input.getD j default).hash &&& (bc - 1)) [])

/-- The invariant holds before the loop runs. -/
theorem unifyInv_zero (input : List ExportVertex) (bc : Nat) :
    UnifyInv input bc 0 (unifyFold input bc 0) := by
  refine ⟨rfl, rfl, ?_, List.length_replicate bc [], ?_, ?_⟩
  · intro x hx
    exact absurd hx (List.not_mem_nil x)
  · intro m b hb
    have hb' : b ∈ (List.replicate bc ([] : List Nat)).getD m [] := hb
    rw [getD_replicate [] bc m] at hb'
    simp at hb'
  · intro j hj
    omega

/-- The bucket count is always at least one. -/
theorem bucketCountOf_pos (n : Nat) : 0 < bucketCountOf n := by
  rw [bucketCountOf]
  split
  · rename_i h
    rw [p2down_eq _ (by omega)]
    exact Nat.pos_pow_of_pos _ (by omega)
  · omega

/-- One loop iteration preserves the invariant. -/
theorem unifyInv_step (input : List ExportVertex) (bc n : Nat) (hbc : 0 < bc)
    (hn : n < input.length) (st : UnifyState)
    (hinv : UnifyInv input bc n st) :
    UnifyInv input bc (n + 1) (unifyStep input bc st n) := by
  obtain ⟨h1, h2, h3, h4, h5, h6⟩ := hinv
  have hbucket_lt : (input.getD n default).hash &&& (bc - 1) < bc :=
    lt_of_le_of_lt Nat.and_le_right (by omega)
  cases hfind : (st.hashTable.getD ((input.getD n default).hash &&& (bc - 1)) []).find?
      (fun b => evEq (input.getD b default) (input.getD n default)) with
  | some b =>
      have hstep : unifyStep input bc st n =
          ⟨st.hashTable, st.unifiedVA, st.indexTable ++ [st.indexTable.getD b 0]⟩ := by
        simp only [unifyStep]
        rw [hfind]
      have hp0 := List.find?_some hfind
      have hp : evEq (input.getD b default) (input.getD n default) = true := hp0
      have hbmem : b ∈ st.hashTable.getD ((input.getD n default).hash &&& (bc - 1)) [] :=
        List.mem_of_find?_eq_some hfind
      obtain ⟨hblt, hbbucket, hbfo⟩ := h5 _ b hbmem
      rw [hstep]
      refine ⟨?_, ?_, ?_, h4, ?_, ?_⟩
      · show st.unifiedVA = dedupFirst (input.take (n + 1))
        rw [take_succ_getD input n default hn, dedupFirst_append]
        have hany : ((dedupFirst (input.take n)).any
            fun u => evEq u (input.getD n default)) = true := by
          rw [dedupFirst_any]
          refine List.any_eq_true.mpr ⟨input.getD b default, ?_, hp⟩
          exact getD_mem_take input n b default hblt (by omega)
        rw [if_pos hany]
        exact h1
      · show (st.indexTable ++ [st.indexTable.getD b 0]).length = n + 1
        simp [h2]
      · intro x hx
        rcases List.mem_append.mp hx with hx' | hx'
        · exact h3 x hx'
        · rw [List.mem_singleton] at hx'
          subst hx'
          exact h3 _ (getD_mem st.indexTable b 0 (by omega))
      · intro m b' hb'
        obtain ⟨hlt, hbk, hfo⟩ := h5 m b' hb'
        exact ⟨by omega, hbk, hfo⟩
      · intro j hj hjfo
        rcases Nat.lt_succ_iff_lt_or_eq.mp hj with hj' | hje
        · exact h6 j hj' hjfo
        · subst hje
          have hff := hjfo b hblt
          rw [hff] at hp
          exact absurd hp (by simp)
  | none =>
      have hstep : unifyStep input bc st n =
          ⟨st.hashTable.set ((input.getD n default).hash &&& (bc - 1))
              ((st.hashTable.getD ((input.getD n default).hash &&& (bc - 1)) []) ++ [n]),
            st.unifiedVA ++ [input.getD n default],
            st.indexTable ++ [st.unifiedVA.length]⟩ := by
        simp only [unifyStep]
        rw [hfind]
      have hnone := List.find?_eq_none.mp hfind
      have hnfo : isFirstOcc input n := by
        intro k hk
        cases hx : evEq (input.getD k default) (input.getD n default)
        · rfl
        · exfalso
          obtain ⟨j, hjk, hjfo, hjv⟩ := exists_firstOcc input (input.getD n default) k hx
          have hjn : j < n := lt_of_le_of_lt hjk hk
          have hjmem := h6 j hjn hjfo
          have hbkt : (input.getD j default).hash &&& (bc - 1)
              = (input.getD n default).hash &&& (bc - 1) := by
            rw [evEq_hash hjv]
          rw [hbkt] at hjmem
          exact absurd hjv (by simpa using hnone j hjmem)
      rw [hstep]
      refine ⟨?_, ?_, ?_, by simp [h4], ?_, ?_⟩
      · show st.unifiedVA ++ [input.getD n default] = dedupFirst (input.take (n + 1))
        rw [take_succ_getD input n default hn, dedupFirst_append]
        have hany : ((dedupFirst (input.take n)).any
            fun u => evEq u (input.getD n default)) = false := by
          rw [dedupFirst_any]
          cases hx : (input.take n).any fun u => evEq u (input.getD n default)
          · rfl
          · exfalso
            obtain ⟨u, hu, huv⟩ := List.any_eq_true.mp hx
            obtain ⟨k, hkn, hkl, rfl⟩ := mem_take_exists input n default u hu
            rw [hnfo k hkn] at huv
            exact absurd huv (by simp)
        rw [if_neg (by rw [hany]; simp), h1]
      · show (st.indexTable ++ [st.unifiedVA.length]).length = n + 1
        simp [h2]
      · intro x hx
        rcases List.mem_append.mp hx with hx' | hx'
        · have := h3 x hx'
          simp only [List.length_append, List.length_singleton]
          omega
        · rw [List.mem_singleton] at hx'
          subst hx'
          simp
      · intro m b' hb'
        by_cases hm : (input.getD n default).hash &&& (bc - 1) = m
        · subst hm
          rw [getD_set_self _ _ _ _ (by omega)] at hb'
          rcases List.mem_append.mp hb' with hb'' | hb''
          · obtain ⟨hlt, hbk, hfo⟩ := h5 _ b' hb''
            exact ⟨by omega, hbk, hfo⟩
          · rw [List.mem_singleton] at hb''
            subst hb''
            exact ⟨by omega, rfl, hnfo⟩
        · rw [getD_set_ne _ _ _ _ _ hm] at hb'
          obtain ⟨hlt, hbk, hfo⟩ := h5 m b' hb'
          exact ⟨by omega, hbk, hfo⟩
      · intro j hj hjfo
        rcases Nat.lt_succ_iff_lt_or_eq.mp hj with hj' | hje
        · have hjmem := h6 j hj' hjfo
          by_cases hm : (input.getD n default).hash &&& (bc - 1)
              = (input.getD j default).hash &&& (bc - 1)
          · rw [← hm] at hjmem ⊢
            rw [getD_set_self _ _ _ _ (by omega)]
            exact List.mem_append_left _ hjmem
          · rw [getD_set_ne _ _ _ _ _ hm]
            exact hjmem
        · rw [hje]
          rw [getD_set_self _ _ _ _ (by omega)]
          exact List.mem_append_right _ (List.mem_singleton_self n)

/-- The invariant holds after any number of iterations. -/
theorem unifyInv_holds (input : List ExportVertex) (bc : Nat) (hbc : 0 < bc) :
    ∀ n, n ≤ input.length → UnifyInv input bc n (unifyFold input bc n) := by
  intro n
  induction n with
  | zero => intro _; exact unifyInv_zero input bc
  | succ m ih =>
      intro h
      rw [unifyFold_succ]
      exact unifyInv_step input bc m hbc (by omega) _ (ih (by omega))

/-- Claim C2: unify_vertices returns the deduplicated vertices in
first-occurrence order (dedupFirst, the spec-side description), an index
table with exactly one entry per input vertex, every entry of which is a
valid index into the unified array; and an input produced by
deindex_mesh always yields an index table whose length is a multiple of
3. -/
theorem unify_vertices_spec (input : List ExportVertex) (mesh : BlMesh) :
    (unify_vertices input).1 = dedupFirst input ∧
    (unify_vertices input).2.length = input.length ∧
    (∀ x ∈ (unify_vertices input).2, x < (unify_vertices input).1.length) ∧
    (unify_vertices (deindex_mesh mesh)).2.length % 3 = 0 := by
  have hmain : ∀ inp : List ExportVertex,
      (unify_vertices inp).1 = dedupFirst inp ∧
      (unify_vertices inp).2.length = inp.length ∧
      ∀ x ∈ (unify_vertices inp).2, x < (unify_vertices inp).1.length := by
    intro inp
    have hbc : 0 < bucketCountOf inp.length := bucketCountOf_pos _
    obtain ⟨h1, h2, h3, _, _, _⟩ :=
      unifyInv_holds inp (bucketCountOf inp.length) hbc inp.length (le_refl _)
    rw [List.take_length] at h1
    exact ⟨h1, h2, h3⟩
  refine ⟨(hmain input).1, (hmain input).2.1, (hmain input).2.2, ?_⟩
  rw [(hmain (deindex_mesh mesh)).2.1, deindex_mesh_length]
  exact sum_faceSize_mod3 _

/-- Two evEq-equal vertices followed by a distinct one. -/
def unifyInputEx : List ExportVertex :=
  [default, default, { (default : ExportVertex) with position := (1, 0, 0) }]

/-- Witness for C2 at a concrete three-vertex input (index table
[0, 0, 1], so 0 is a member and the unified array is the two distinct
vertices in first-occurrence order). -/
theorem unify_vertices_spec_witness :
    (unify_vertices unifyInputEx).1 = dedupFirst unifyInputEx ∧
    0 < (unify_vertices unifyInputEx).1.length :=
  ⟨(unify_vertices_spec unifyInputEx ⟨[], [], [], []⟩).1,
   (unify_vertices_spec unifyInputEx ⟨[], [], [], []⟩).2.2.1 0
     (by with_unfolding_all decide)⟩
